import Mathlib

/-!
Verification development for the WPE dereverberation module
(`nt/speech_enhancement/wpe.py`).

The numeric scalar type of the source (complex floating point) is modelled
exactly by complex numbers with rational components (`CQ`): every arithmetic
operation of the source is translated to the corresponding exact operation.
Tensors are modelled as total functions from natural-number indices, with the
shape carried as explicit parameters; numpy slice assignments become guarded
functional updates, and python `for` loops over index ranges become `List.foldl`
over the same ranges.  Numpy operations that can raise (`np.linalg.solve`,
`np.linalg.inv`, broadcasting of mismatched shapes, reading an unbound local)
are modelled with `Except NpError`.
-/

/-- Complex numbers with rational real and imaginary part: the exact model of
the complex scalars used by `wpe.py`. -/
structure CQ where
  re : ℚ
  im : ℚ
deriving DecidableEq

def CQ.add (x y : CQ) : CQ := ⟨x.re + y.re, x.im + y.im⟩

def CQ.neg (x : CQ) : CQ := ⟨-x.re, -x.im⟩

def CQ.mul (x y : CQ) : CQ := ⟨x.re * y.re - x.im * y.im, x.re * y.im + x.im * y.re⟩

/-- Complex conjugate (`np.conj`). -/
def CQ.conj (x : CQ) : CQ := ⟨x.re, -x.im⟩

/-- Squared modulus: the (real) value of `np.abs(z * np.conj(z))`, since
`z * conj z` is real and non-negative with value `|z|^2`. -/
def CQ.normSq (x : CQ) : ℚ := x.re * x.re + x.im * x.im

/-- Division of a complex value by a real scalar (numpy broadcasts the real
divisor over both components).  Division by zero follows the field convention
`q / 0 = 0`; it is never exercised by the source paths modelled below. -/
def CQ.divR (x : CQ) (r : ℚ) : CQ := ⟨x.re / r, x.im / r⟩

/-- Complex division, used inside the exact Gaussian elimination that models
`np.linalg.solve` / `np.linalg.inv`. -/
def CQ.div (x y : CQ) : CQ :=
  ⟨(x.re * y.re + x.im * y.im) / CQ.normSq y, (x.im * y.re - x.re * y.im) / CQ.normSq y⟩

instance : Zero CQ := ⟨⟨0, 0⟩⟩

instance : One CQ := ⟨⟨1, 0⟩⟩

instance : Add CQ := ⟨CQ.add⟩

instance : Neg CQ := ⟨CQ.neg⟩

instance : Mul CQ := ⟨CQ.mul⟩

theorem CQ.add_def (x y : CQ) : x + y = ⟨x.re + y.re, x.im + y.im⟩ := rfl

theorem CQ.neg_def (x : CQ) : -x = ⟨-x.re, -x.im⟩ := rfl

theorem CQ.zero_def : (0 : CQ) = ⟨0, 0⟩ := rfl

instance : AddCommGroup CQ where
  add_assoc a b c := by
    cases a; cases b; cases c
    simp only [CQ.add_def, CQ.mk.injEq]
    exact ⟨by ring, by ring⟩
  zero_add a := by
    cases a
    simp only [CQ.zero_def, CQ.add_def, CQ.mk.injEq]
    exact ⟨by ring, by ring⟩
  add_zero a := by
    cases a
    simp only [CQ.zero_def, CQ.add_def, CQ.mk.injEq]
    exact ⟨by ring, by ring⟩
  add_comm a b := by
    cases a; cases b
    simp only [CQ.add_def, CQ.mk.injEq]
    exact ⟨by ring, by ring⟩
  neg_add_cancel a := by
    cases a
    simp only [CQ.zero_def, CQ.add_def, CQ.neg_def, CQ.mk.injEq]
    exact ⟨by ring, by ring⟩
  nsmul := nsmulRec
  zsmul := zsmulRec

/-- Errors raised by the numpy operations exercised in `wpe.py`:
`np.linalg.solve` / `np.linalg.inv` on a singular matrix, an in-place
subtraction of arrays whose shapes do not broadcast, a python local variable
read before assignment, and (for contrast with the spec's claimed behaviour,
which the source never raises) a shape-validation error. -/
inductive NpError where
  | singularMatrix
  | broadcastMismatch
  | unboundLocal
  | shapeError
deriving DecidableEq

/-- Projection of an `Except` value onto the error it carries, if any
(used so that concrete evaluations stay decidable even when the payload is a
function-valued tensor). -/
def exErr {α : Type} (e : Except NpError α) : Option NpError :=
  match e with
  | .error b => some b
  | .ok _ => none

/-- Row index swap used by the elimination below (exchanges rows `0` and `r`). -/
def swapIdx (r i : ℕ) : ℕ := if i = 0 then r else if i = r then 0 else i

/-- Exact Gaussian elimination with pivot search, modelling `np.linalg.solve`
on an `n × n` system: returns `none` exactly when the matrix is singular
(which is when LAPACK raises `LinAlgError`). -/
def gaussSolve : ℕ → (ℕ → ℕ → CQ) → (ℕ → CQ) → Option (ℕ → CQ)
  | 0, _, _ => some (fun _ => 0)
  | n + 1, A, b =>
    match (List.range (n + 1)).find? (fun r => !(decide (A r 0 = 0))) with
    | none => none
    | some r =>
      let A1 : ℕ → ℕ → CQ := fun i j => A (swapIdx r i) j
      let b1 : ℕ → CQ := fun i => b (swapIdx r i)
      let p := A1 0 0
      let A2 : ℕ → ℕ → CQ := fun i j =>
        A1 (i + 1) (j + 1) + -(CQ.mul (CQ.div (A1 (i + 1) 0) p) (A1 0 (j + 1)))
      let b2 : ℕ → CQ := fun i =>
        b1 (i + 1) + -(CQ.mul (CQ.div (A1 (i + 1) 0) p) (b1 0))
      match gaussSolve n A2 b2 with
      | none => none
      | some x2 =>
        let x0 := CQ.div (b1 0 + -(∑ j ∈ Finset.range n, CQ.mul (A1 0 (j + 1)) (x2 j))) p
        some (fun i => if i = 0 then x0 else x2 (i - 1))

/-- Matrix inverse via one exact solve per basis column, modelling
`np.linalg.inv` on an `n × n` matrix: `none` exactly on singular input. -/
def matInv (n : ℕ) (A : ℕ → ℕ → CQ) : Option (ℕ → ℕ → CQ) :=
  if h : ∀ j ∈ List.range n, (gaussSolve n A (fun i => if i = j then 1 else 0)).isSome then
    some (fun i j => ((gaussSolve n A (fun i2 => if i2 = j then 1 else 0)).getD (fun _ => 0)) i)
  else none

/-- Exact rational square root, modelling `np.sqrt` on the rational values at
which the concrete evaluations below apply it (all of them perfect squares). -/
def ratSqrt (q : ℚ) : ℚ := (Nat.sqrt q.num.toNat : ℚ) / (Nat.sqrt q.den : ℚ)

/-- Floored power estimate of `wpe` (lines 93 and 119-120 of `wpe.py`):
`np.maximum(np.abs(X * X.conj()), epsilon)`.  Since `X * conj X` is real and
non-negative with value `|X|^2`, its `np.abs` is `CQ.normSq`. -/
def powerSpec (X : ℕ → ℕ → CQ) (eps : ℚ) : ℕ → ℕ → ℚ :=
  fun t f => max (CQ.normSq (X t f)) eps

/-- Modelled from the spec: `nt.utils.numpy_utils.segment_axis` is imported by
`wpe.py` but its source is not part of the repository snapshot.  §4.2 of the
spec (FrameWindower): with window length `order` and overlap `order - 1`
(stride 1) along the time axis of a `(T, F)` signal, the windows are
`Y[w .. w+order-1]` for `w = 0 .. T-order`, so their number is `T + 1 - order`
(zero when `T < order`). -/
def numWin (T order : ℕ) : ℕ := T + 1 - order

/-- Number of windows remaining after the trailing slice `[..., :-delay-1]`
of `wpe.py` lines 99-106 drops the last `delay + 1` windows. -/
def winCount (T order delay : ℕ) : ℕ := numWin T order - (delay + 1)

/-- Per-bin correlation matrix of `wpe.py` lines 107-108:
`np.einsum('...dt,...et->...de', Y_windowed_norm, Y_windowed_norm.conj())`,
where window `w` of the windowed signal holds `Yn[w+i]` at tap `i`. -/
def corrMat (Yn : ℕ → ℕ → CQ) (T order delay : ℕ) : ℕ → ℕ → ℕ → CQ :=
  fun f i j =>
    ∑ w ∈ Finset.range (winCount T order delay),
      CQ.mul (Yn (w + i) f) (CQ.conj (Yn (w + j) f))

/-- Per-bin cross-correlation vector of `wpe.py` lines 109-110:
`np.sum(Y_windowed_norm * Y_norm[order + delay:, None, :].T.conj(), axis=-1)`. -/
def crossVec (Yn : ℕ → ℕ → CQ) (T order delay : ℕ) : ℕ → ℕ → CQ :=
  fun f i =>
    ∑ w ∈ Finset.range (winCount T order delay),
      CQ.mul (Yn (w + i) f) (CQ.conj (Yn (order + delay + w) f))

/-- Regression signal of `wpe.py` lines 114-116:
`np.einsum('ab,abc->ac', regression_coefficient.conj(), Y_windowed).T`,
indexed here as `(frequency, window)`. -/
def regSig (coeff : ℕ → ℕ → CQ) (Y : ℕ → ℕ → CQ) (order : ℕ) : ℕ → ℕ → CQ :=
  fun f w => ∑ i ∈ Finset.range order, CQ.mul (CQ.conj (coeff f i)) (Y (w + i) f)

/-- State threaded through the iterations of `wpe`: the `dereverberated`
buffer (initialised to `np.zeros_like(Y)` on line 94) and the current
`power_spectrum`. -/
structure WpeState where
  derev : ℕ → ℕ → CQ
  power : ℕ → ℕ → ℚ

/-- Normalised signal of `wpe.py` line 98: `Y_norm = Y / np.sqrt(power_spectrum)`. -/
def wpeNorm (sq : ℚ → ℚ) (Y : ℕ → ℕ → CQ) (pw : ℕ → ℕ → ℚ) : ℕ → ℕ → CQ :=
  fun t f => CQ.divR (Y t f) (sq (pw t f))

/-- Per-bin linear solve of `wpe.py` lines 111-113:
`np.linalg.solve(correlation_matrix[f], cross_correlation_vector[f])`. -/
def wpeSolve (sq : ℚ → ℚ) (Y : ℕ → ℕ → CQ) (T order delay : ℕ) (pw : ℕ → ℕ → ℚ)
    (f : ℕ) : Option (ℕ → CQ) :=
  gaussSolve order (corrMat (wpeNorm sq Y pw) T order delay f)
    (crossVec (wpeNorm sq Y pw) T order delay f)

/-- The regression coefficients of the current iteration (one filter per bin). -/
def wpeCoeff (sq : ℚ → ℚ) (Y : ℕ → ℕ → CQ) (T order delay : ℕ) (pw : ℕ → ℕ → ℚ) :
    ℕ → ℕ → CQ :=
  fun f => (wpeSolve sq Y T order delay pw f).getD (fun _ => 0)

/-- The updated `dereverberated` buffer of `wpe.py` lines 117-118: rows
`order + delay ..< T` (columns `0 ..< F`) receive `Y - regression_signal`,
all other entries keep their previous value. -/
def wpeDerev2 (sq : ℚ → ℚ) (Y : ℕ → ℕ → CQ) (T F order delay : ℕ) (s : WpeState) :
    ℕ → ℕ → CQ :=
  fun t f =>
    if (order + delay ≤ t ∧ t < T) ∧ f < F then
      Y t f - regSig (wpeCoeff sq Y T order delay s.power) Y order f (t - (order + delay))
    else s.derev t f

/-- One iteration of the `for iteration in range(iterations)` loop of `wpe`
(lines 96-120): normalisation, windowing, correlation accumulation, per-bin
solve (raising `LinAlgError` on a singular matrix), prediction subtraction,
and power re-estimation. -/
def wpeStep (sq : ℚ → ℚ) (Y : ℕ → ℕ → CQ) (eps : ℚ) (T F order delay : ℕ)
    (s : WpeState) : Except NpError WpeState :=
  if ∀ f ∈ List.range F, (wpeSolve sq Y T order delay s.power f).isSome then
    .ok ⟨wpeDerev2 sq Y T F order delay s,
         powerSpec (wpeDerev2 sq Y T F order delay s) eps⟩
  else .error .singularMatrix

/-- The iteration loop of `wpe`: state after `k` iterations.  Iteration zero
is the state right before the loop: `dereverberated = np.zeros_like(Y)` and
`power_spectrum = np.maximum(np.abs(Y * Y.conj()), epsilon)` (lines 93-94). -/
def wpeIter (sq : ℚ → ℚ) (Y : ℕ → ℕ → CQ) (eps : ℚ) (T F order delay : ℕ) :
    ℕ → Except NpError WpeState
  | 0 => .ok ⟨fun _ _ => 0, powerSpec Y eps⟩
  | k + 1 => (wpeIter sq Y eps T F order delay k).bind (wpeStep sq Y eps T F order delay)

/-- The single-channel `wpe` entry point (lines 81-122): runs `iterations`
iterations and returns the `dereverberated` buffer.  `sq` models `np.sqrt`. -/
def wpe (sq : ℚ → ℚ) (Y : ℕ → ℕ → CQ) (eps : ℚ) (T F order delay iterations : ℕ) :
    Except NpError (ℕ → ℕ → CQ) :=
  (wpeIter sq Y eps T F order delay iterations).map WpeState.derev

/-- Projection of the power spectrum of a `wpe` iteration state at one index
(kept `Option ℚ`-valued so concrete instances are decidable). -/
def powerProj (e : Except NpError WpeState) (t f : ℕ) : Option ℚ :=
  (e.toOption).map (fun s => s.power t f)

/-- Projection of a `wpe` output tensor at one index. -/
def wpeAt (e : Except NpError (ℕ → ℕ → CQ)) (t f : ℕ) : Option CQ :=
  (e.toOption).map (fun d => d t f)

/-- Concrete input for the single-channel evaluations: `T = 2`, `F = 1`,
`Y = [[1], [1]]`. -/
def Ysmall : ℕ → ℕ → CQ := fun _ _ => ⟨1, 0⟩

/-- Concrete Scenario C input (spec §8): shape `(5, 2)`, all-ones. -/
def YscenC : ℕ → ℕ → CQ := fun _ _ => ⟨1, 0⟩

/-- The vector subtracted from `x_hat[l, :, t]` by the innermost statement of
`_dereverberate` (line 135): `G_hat[l, tau - Delta, :, :].conj().T.dot(y[l, :, t - tau])`,
whose component `n` is `sum_m conj(G[l, tau - Delta, m, n]) * y[l, m, t - tau]`. -/
def derevSub (y : ℕ → ℕ → ℕ → CQ) (G : ℕ → ℕ → ℕ → ℕ → CQ) (N Delta : ℕ)
    (l t tau : ℕ) : ℕ → CQ :=
  fun n => ∑ m ∈ Finset.range N, CQ.mul (CQ.conj (G l (tau - Delta) m n)) (y l m (t - tau))

/-- The in-place update `x_hat[l, :, t] -= v`: entries with first index `l`,
channel `< N` and time `t` are decremented, all others are untouched. -/
def updVec (x : ℕ → ℕ → ℕ → CQ) (N l t : ℕ) (v : ℕ → CQ) : ℕ → ℕ → ℕ → CQ :=
  fun l2 n2 t2 => if l2 = l ∧ t2 = t ∧ n2 < N then x l2 n2 t2 - v n2 else x l2 n2 t2

/-- The `for tau in range(Delta, Delta + K)` loop of `_dereverberate`
for fixed `l` and `t`. -/
def derevTau (y : ℕ → ℕ → ℕ → CQ) (G : ℕ → ℕ → ℕ → ℕ → CQ) (N K Delta : ℕ)
    (l t : ℕ) (x : ℕ → ℕ → ℕ → CQ) : ℕ → ℕ → ℕ → CQ :=
  (List.range' Delta K).foldl (fun x2 tau => updVec x2 N l t (derevSub y G N Delta l t tau)) x

/-- The `for t in range(Delta + K, T)` loop of `_dereverberate` for fixed `l`. -/
def derevTime (y : ℕ → ℕ → ℕ → CQ) (G : ℕ → ℕ → ℕ → ℕ → CQ) (N T K Delta : ℕ)
    (l : ℕ) (x : ℕ → ℕ → ℕ → CQ) : ℕ → ℕ → ℕ → CQ :=
  (List.range' (Delta + K) (T - (Delta + K))).foldl (fun x2 t => derevTau y G N K Delta l t x2) x

/-- The naive `_dereverberate(y, G_hat, K, Delta)` (lines 128-136): start from
`np.copy(y)` and run the triple loop of in-place subtractions. -/
def derevNaive (y : ℕ → ℕ → ℕ → CQ) (G : ℕ → ℕ → ℕ → ℕ → CQ) (L N T K Delta : ℕ) :
    ℕ → ℕ → ℕ → CQ :=
  (List.range L).foldl (fun x2 l => derevTime y G N T K Delta l x2) y

/-- One `tau` update of `_dereverberate_vectorized` (lines 141-144):
`x_hat[:, :, K + Delta:] -= np.einsum('abc,abe->ace', G_hat[:, tau - Delta].conj(), y[..., K + Delta - tau:-tau])`.
The python slice `y[..., K + Delta - tau:-tau]` has stop index `-tau`, which
for `tau = 0` means stop `0` (an empty slice), not `T`; numpy then refuses the
in-place subtraction unless the lengths broadcast (equal, or right length one). -/
def vecStep (y : ℕ → ℕ → ℕ → CQ) (G : ℕ → ℕ → ℕ → ℕ → CQ) (L N T K Delta : ℕ)
    (x : ℕ → ℕ → ℕ → CQ) (tau : ℕ) : Except NpError (ℕ → ℕ → ℕ → CQ) :=
  if (if tau = 0 then 0 else T - tau) - (K + Delta - tau) = T - (K + Delta) then
    .ok (fun l n t =>
      if l < L ∧ n < N ∧ K + Delta ≤ t ∧ t < T then
        x l n t - ∑ m ∈ Finset.range N,
          CQ.mul (CQ.conj (G l (tau - Delta) m n)) (y l m (K + Delta - tau + (t - (K + Delta))))
      else x l n t)
  else if (if tau = 0 then 0 else T - tau) - (K + Delta - tau) = 1 then
    .ok (fun l n t =>
      if l < L ∧ n < N ∧ K + Delta ≤ t ∧ t < T then
        x l n t - ∑ m ∈ Finset.range N,
          CQ.mul (CQ.conj (G l (tau - Delta) m n)) (y l m (K + Delta - tau))
      else x l n t)
  else .error .broadcastMismatch

/-- The vectorized `_dereverberate_vectorized(y, G_hat, K, Delta)` (lines
139-145): start from `np.copy(y)` and fold the per-`tau` vectorized updates. -/
def derevVec (y : ℕ → ℕ → ℕ → CQ) (G : ℕ → ℕ → ℕ → ℕ → CQ) (L N T K Delta : ℕ) :
    Except NpError (ℕ → ℕ → ℕ → CQ) :=
  (List.range' Delta K).foldl
    (fun ex tau => ex.bind (fun x => vecStep y G L N T K Delta x tau)) (.ok y)

/-- Projection of a `derevVec` result at one index. -/
def vecAt (e : Except NpError (ℕ → ℕ → ℕ → CQ)) (l n t : ℕ) : Option CQ :=
  (e.toOption).map (fun x => x l n t)

/-- A rank-4 tensor materialised as nested lists, recording its shape
concretely (used for the filter tensor `G_hat`, whose shape invariant is one
of the spec's claims). -/
def mat4 (a b c d : ℕ) (f : ℕ → ℕ → ℕ → ℕ → CQ) : List (List (List (List CQ))) :=
  (List.range a).map (fun i =>
    (List.range b).map (fun j =>
      (List.range c).map (fun m =>
        (List.range d).map (fun n => f i j m n))))

/-- Shape check for a nested-list rank-4 tensor: exactly `a` slabs, each of
`b` rows of `c` lists of `d` scalars. -/
def isShape4 (G : List (List (List (List CQ)))) (a b c d : ℕ) : Bool :=
  G.length == a &&
    G.all (fun x => x.length == b &&
      x.all (fun y => y.length == c &&
        y.all (fun z => z.length == d)))

/-- Element access into the materialised filter tensor (out-of-range reads
return `0`; the source only reads in-range entries). -/
def g4 (G : List (List (List (List CQ)))) : ℕ → ℕ → ℕ → ℕ → CQ :=
  fun l k m n => ((((G.getD l []).getD k []).getD m []).getD n 0)

/-- Modelled from the spec: `nt.utils.math_ops.scaled_full_correlation_matrix`
is imported by `wpe.py` but its source is not part of the repository snapshot.
§4.4 step 2 of the spec: from `X` of shape `(L, N, T)` compute a separable
per-(bin, time) power factor and a per-bin `N × N` Hermitian spatial
correlation matrix scaled by it.  The power factor is the channel-average
power; the correlation matrix is the power-scaled, time-averaged outer
product. -/
def scaledPower (x : ℕ → ℕ → ℕ → CQ) (N : ℕ) : ℕ → ℕ → ℚ :=
  fun l t => (∑ n ∈ Finset.range N, CQ.normSq (x l n t)) / (N : ℚ)

/-- Modelled from the spec: the correlation-matrix half of
`scaled_full_correlation_matrix` (see `scaledPower`). -/
def scaledCorr (x : ℕ → ℕ → ℕ → CQ) (N T : ℕ) : ℕ → ℕ → ℕ → CQ :=
  fun l m n =>
    CQ.divR (∑ t ∈ Finset.range T,
      CQ.divR (CQ.mul (x l m t) (CQ.conj (x l n t))) (scaledPower x N l t)) (T : ℚ)

/-- The statistics step `_get_spatial_correlation_matrix_inverse` (lines 148-161): invert the
per-bin correlation matrix (`np.linalg.inv`, raising on singular input) and
divide by the power factor.  `none` models the `LinAlgError`. -/
def spatialInv (x : ℕ → ℕ → ℕ → CQ) (L N T : ℕ) : Option (ℕ → ℕ → ℕ → ℕ → CQ) :=
  if h : ∀ l ∈ List.range L, (matInv N (scaledCorr x N T l)).isSome then
    some (fun l m n t =>
      CQ.divR (((matInv N (scaledCorr x N T l)).getD (fun _ _ => 0)) m n)
        (scaledPower x N l t))
  else none

/-- One assignment of the quadruple loop of `_get_crazy_matrix` (lines
169-175): `psi_bar[:, N*N*(tau-Delta) + N*n0 + n1, n0, t-Delta-K+1] = Y[:, n1, t-tau]`.
Negative python indices wrap modulo the axis length, here modelled with
`Int.emod` (the claims never exercise an index below `-length`, where python
would raise instead). -/
def crazyUpd (Y : ℕ → ℕ → ℕ → CQ) (L N T K Delta : ℕ) (n0 n1 tau t : ℕ)
    (psi : ℕ → ℕ → ℕ → ℕ → CQ) : ℕ → ℕ → ℕ → ℕ → CQ :=
  fun l i m u =>
    if l < L ∧ i = N * N * (tau - Delta) + N * n0 + n1 ∧ m = n0 ∧
        u = (((t : ℤ) - Delta - K + 1).emod ((T - Delta - K + 1 : ℕ) : ℤ)).toNat then
      Y l n1 (((t : ℤ) - tau).emod (T : ℤ)).toNat
    else psi l i m u

/-- The regressor assembly `_get_crazy_matrix(Y, K, Delta)` (lines 164-176): quadruple loop of
assignments into a zero-initialised tensor of shape `(L, N*N*K, N, T-Delta-K+1)`. -/
def crazyMat (Y : ℕ → ℕ → ℕ → CQ) (L N T K Delta : ℕ) : ℕ → ℕ → ℕ → ℕ → CQ :=
  (List.range N).foldl (fun p1 n0 =>
    (List.range N).foldl (fun p2 n1 =>
      (List.range' Delta K).foldl (fun p3 tau =>
        (List.range T).foldl (fun p4 t => crazyUpd Y L N T K Delta n0 n1 tau t p4) p3)
        p2) p1)
    (fun _ _ _ _ => 0)

/-- The normal-equation matrix `R_hat` of lines 206-211:
`np.einsum('lmnt,lnot,lpot->lmp', psi_bar, Lambda_hat_inverse, psi_bar.conj())`,
with the time axis running over `T - Delta - K + 1` frames. -/
def mcRhat (psi Lam : ℕ → ℕ → ℕ → ℕ → CQ) (N Tp : ℕ) : ℕ → ℕ → ℕ → CQ :=
  fun l m p =>
    ∑ n ∈ Finset.range N, ∑ o ∈ Finset.range N, ∑ t ∈ Finset.range Tp,
      CQ.mul (CQ.mul (psi l m n t) (Lam l n o t)) (CQ.conj (psi l p o t))

/-- The right-hand side `r_hat` of lines 214-219:
`np.einsum('lmnt,lnot,lot->lm', psi_bar, Lambda_hat_inverse, Y[:, :, K+Delta-1:])`. -/
def mcRvec (psi Lam : ℕ → ℕ → ℕ → ℕ → CQ) (Y : ℕ → ℕ → ℕ → CQ) (N K Delta Tp : ℕ) :
    ℕ → ℕ → CQ :=
  fun l m =>
    ∑ n ∈ Finset.range N, ∑ o ∈ Finset.range N, ∑ t ∈ Finset.range Tp,
      CQ.mul (CQ.mul (psi l m n t) (Lam l n o t)) (Y l o (K + Delta - 1 + t))

/-- State threaded through the iterations of `multichannel_wpe`: the python
local `x_hat` (unbound before the first iteration, hence `Option`) and the
current filter tensor `G_hat`, materialised with its shape. -/
structure MCState where
  xhat : Option (ℕ → ℕ → ℕ → CQ)
  G : List (List (List (List CQ)))

/-- One iteration of `multichannel_wpe` (lines 191-230): dereverberate with
the previous filter, compute the spatial statistics (`np.linalg.inv` may
raise), assemble `psi_bar`, form and solve the per-bin normal equations
(`np.linalg.solve` may raise), and rebuild `G_hat` as
`g_hat.reshape(L, N, N, K).transpose((0, 3, 1, 2))` — a fresh tensor of shape
`(L, K, N, N)`. -/
def mcStep (Y : ℕ → ℕ → ℕ → CQ) (L N T K Delta : ℕ) (s : MCState) :
    Except NpError MCState :=
  let x := derevNaive Y (g4 s.G) L N T K Delta
  match spatialInv x L N T with
  | none => .error .singularMatrix
  | some Lam =>
    let psi := crazyMat Y L N T K Delta
    let Tp := T - Delta - K + 1
    let R := mcRhat psi Lam N Tp
    let r := mcRvec psi Lam Y N K Delta Tp
    if ∀ l ∈ List.range L, (gaussSolve (N * N * K) (R l) (r l)).isSome then
      let g : ℕ → ℕ → CQ := fun l => (gaussSolve (N * N * K) (R l) (r l)).getD (fun _ => 0)
      .ok ⟨some x, mat4 L K N N (fun l k n0 n1 => g l (n0 * (N * K) + n1 * K + k))⟩
    else .error .singularMatrix

/-- The iteration loop of `multichannel_wpe`: state after `k` iterations.
Before the loop, `G_hat = np.zeros((L, K, N, N))` (line 189) and the local
`x_hat` is not yet bound. -/
def mcIter (Y : ℕ → ℕ → ℕ → CQ) (L N T K Delta : ℕ) : ℕ → Except NpError MCState
  | 0 => .ok ⟨none, mat4 L K N N (fun _ _ _ _ => 0)⟩
  | k + 1 => (mcIter Y L N T K Delta k).bind (mcStep Y L N T K Delta)

/-- The entry point `multichannel_wpe(Y, K, Delta, iterations)` (lines 179-232): run the
iterations and `return x_hat`; if the loop body never ran, `x_hat` was never
bound and python raises `UnboundLocalError`. -/
def multichannel_wpe (Y : ℕ → ℕ → ℕ → CQ) (L N T K Delta iterations : ℕ) :
    Except NpError (ℕ → ℕ → ℕ → CQ) :=
  (mcIter Y L N T K Delta iterations).bind (fun s =>
    match s.xhat with
    | some x => .ok x
    | none => .error .unboundLocal)

/-- Projection of the filter tensor after an iteration (list-valued, hence
decidable at concrete inputs). -/
def gProj (e : Except NpError MCState) : Option (List (List (List (List CQ)))) :=
  (e.toOption).map MCState.G

/-- Concrete multichannel input: shape `(1, 1, 2)`, `Y = [[[1, 1]]]`. -/
def Ymc : ℕ → ℕ → ℕ → CQ := fun _ _ _ => ⟨1, 0⟩

/-- Concrete filter for the `_dereverberate` evaluations: all entries `1`. -/
def Gone : ℕ → ℕ → ℕ → ℕ → CQ := fun _ _ _ _ => ⟨1, 0⟩

/-- Character-list version of python's `needle in hay` substring test:
does the second list start with the first? -/
def startsWithList : List Char → List Char → Bool
  | [], _ => true
  | _ :: _, [] => false
  | a :: as, b :: bs => a == b && startsWithList as bs

/-- Substring occurrence on character lists. -/
def containsList : List Char → List Char → Bool
  | n, [] => n.isEmpty
  | n, c :: cs => startsWithList n (c :: cs) || containsList n cs

/-- Python's `needle in hay` substring test on strings. -/
def strContains (hay needle : String) : Bool := containsList needle.toList hay.toList

/-- The marker looked for on each settings line (`'num_mic = ' in line`,
line 51 of `wpe.py`). -/
def numMicKey : String := "num_mic = "

/-- The replacement line written on a channel-count mismatch (line 53):
`'num_mic = ' + str(c) + ";\n"`. -/
def numMicLine (c : ℕ) : String := "num_mic = " ++ Nat.repr c ++ ";\n"

/-- The line-scanning loop of `dereverb` (lines 47-57): accumulate output
lines and the `modify_settings` flag.  A line containing `'num_mic = '` is
replaced (and the flag set) when `str(c)` does not occur in it as a
substring; when `str(c)` does occur, the loop `break`s, keeping only the
lines collected so far and the flag accumulated so far. -/
def collectLines (c : ℕ) : List String → List String × Bool
  | [] => ([], false)
  | line :: rest =>
    if strContains line numMicKey then
      if strContains line (Nat.repr c) then ([], false)
      else (numMicLine c :: (collectLines c rest).1, true)
    else (line :: (collectLines c rest).1, (collectLines c rest).2)

/-- The settings-file effect of `dereverb` (lines 45-61): `some newLines`
when the file is rewritten (with `newLines` as its new contents), `none` when
the file is left untouched on disk. -/
def settingsUpdate (fileLines : List String) (c : ℕ) : Option (List String) :=
  if (collectLines c fileLines).2 then some (collectLines c fileLines).1 else none

/-- The total subtrahend accumulated at `(l, t, n)` by the `tau` loop of
`_dereverberate`. -/
def derevTotal (y : ℕ → ℕ → ℕ → CQ) (G : ℕ → ℕ → ℕ → ℕ → CQ) (N K Delta : ℕ)
    (l t n : ℕ) : CQ :=
  ∑ tau ∈ Finset.Ico Delta (Delta + K), derevSub y G N Delta l t tau n

theorem listMapRangeSum (f : ℕ → CQ) (a n : ℕ) :
    ((List.range' a n).map f).sum = ∑ i ∈ Finset.Ico a (a + n), f i := by
  induction n generalizing a with
  | zero => simp
  | succ n ih =>
    rw [List.range'_succ, List.map_cons, List.sum_cons, ih]
    rw [show a + (n + 1) = a + 1 + n by omega]
    rw [Finset.sum_eq_sum_Ico_succ_bot (show a < a + 1 + n by omega)]

theorem derevTauFold_untouched (y : ℕ → ℕ → ℕ → CQ) (G : ℕ → ℕ → ℕ → ℕ → CQ)
    (N Delta l t : ℕ) (ts : List ℕ) (x : ℕ → ℕ → ℕ → CQ) (l2 n2 t2 : ℕ)
    (h : ¬(l2 = l ∧ t2 = t ∧ n2 < N)) :
    (ts.foldl (fun x2 tau => updVec x2 N l t (derevSub y G N Delta l t tau)) x) l2 n2 t2
      = x l2 n2 t2 := by
  induction ts generalizing x with
  | nil => rfl
  | cons tau0 ts ih =>
    rw [List.foldl_cons, ih]
    simp only [updVec, if_neg h]

theorem derevTauFold_val (y : ℕ → ℕ → ℕ → CQ) (G : ℕ → ℕ → ℕ → ℕ → CQ)
    (N Delta l t : ℕ) (ts : List ℕ) (x : ℕ → ℕ → ℕ → CQ) (n : ℕ) (hn : n < N) :
    (ts.foldl (fun x2 tau => updVec x2 N l t (derevSub y G N Delta l t tau)) x) l n t
      = x l n t - (ts.map (fun tau => derevSub y G N Delta l t tau n)).sum := by
  induction ts generalizing x with
  | nil => simp
  | cons tau0 ts ih =>
    rw [List.foldl_cons, ih, List.map_cons, List.sum_cons]
    have hupd : updVec x N l t (derevSub y G N Delta l t tau0) l n t
        = x l n t - derevSub y G N Delta l t tau0 n := by
      simp [updVec, hn]
    rw [hupd, sub_sub]

theorem derevTau_closed (y : ℕ → ℕ → ℕ → CQ) (G : ℕ → ℕ → ℕ → ℕ → CQ)
    (N K Delta l t : ℕ) (x : ℕ → ℕ → ℕ → CQ) (l2 n2 t2 : ℕ) :
    derevTau y G N K Delta l t x l2 n2 t2 =
      if l2 = l ∧ t2 = t ∧ n2 < N then x l2 n2 t2 - derevTotal y G N K Delta l t2 n2
      else x l2 n2 t2 := by
  by_cases h : l2 = l ∧ t2 = t ∧ n2 < N
  · obtain ⟨h1, h2, h3⟩ := h
    subst h1; subst h2
    rw [if_pos ⟨rfl, rfl, h3⟩, derevTau, derevTauFold_val y G N Delta l2 t2 _ x n2 h3]
    rw [derevTotal, ← listMapRangeSum]
  · rw [if_neg h, derevTau, derevTauFold_untouched y G N Delta l t _ x l2 n2 t2 h]

theorem derevTimeFold_closed (y : ℕ → ℕ → ℕ → CQ) (G : ℕ → ℕ → ℕ → ℕ → CQ)
    (N K Delta l : ℕ) (ts : List ℕ) (hts : ts.Nodup) (x : ℕ → ℕ → ℕ → CQ)
    (l2 n2 t2 : ℕ) :
    (ts.foldl (fun x2 t => derevTau y G N K Delta l t x2) x) l2 n2 t2 =
      if l2 = l ∧ t2 ∈ ts ∧ n2 < N then x l2 n2 t2 - derevTotal y G N K Delta l t2 n2
      else x l2 n2 t2 := by
  induction ts generalizing x with
  | nil => simp
  | cons t0 ts ih =>
    have ht0 : t0 ∉ ts := (List.nodup_cons.mp hts).1
    rw [List.foldl_cons, ih (List.nodup_cons.mp hts).2]
    by_cases h : l2 = l ∧ t2 ∈ ts ∧ n2 < N
    · rw [if_pos h, if_pos ⟨h.1, List.mem_cons_of_mem _ h.2.1, h.2.2⟩]
      have hne : ¬(l2 = l ∧ t2 = t0 ∧ n2 < N) := by
        rintro ⟨_, h2, _⟩
        exact ht0 (h2 ▸ h.2.1)
      rw [derevTau_closed, if_neg hne]
    · rw [if_neg h]
      by_cases h2 : l2 = l ∧ t2 = t0 ∧ n2 < N
      · rw [if_pos ⟨h2.1, by rw [h2.2.1]; exact List.mem_cons_self _ _, h2.2.2⟩]
        rw [derevTau_closed, if_pos h2]
      · have hne2 : ¬(l2 = l ∧ t2 ∈ t0 :: ts ∧ n2 < N) := by
          rintro ⟨ha, hb, hc⟩
          rcases List.mem_cons.mp hb with hb1 | hb2
          · exact h2 ⟨ha, hb1, hc⟩
          · exact h ⟨ha, hb2, hc⟩
        rw [if_neg hne2, derevTau_closed, if_neg h2]

theorem derevTime_closed (y : ℕ → ℕ → ℕ → CQ) (G : ℕ → ℕ → ℕ → ℕ → CQ)
    (N T K Delta l : ℕ) (x : ℕ → ℕ → ℕ → CQ) (l2 n2 t2 : ℕ) :
    derevTime y G N T K Delta l x l2 n2 t2 =
      if l2 = l ∧ (Delta + K ≤ t2 ∧ t2 < T) ∧ n2 < N then
        x l2 n2 t2 - derevTotal y G N K Delta l t2 n2
      else x l2 n2 t2 := by
  rw [derevTime, derevTimeFold_closed y G N K Delta l _ (List.nodup_range' ..) x l2 n2 t2]
  have hmem : t2 ∈ List.range' (Delta + K) (T - (Delta + K)) ↔ Delta + K ≤ t2 ∧ t2 < T := by
    rw [List.mem_range'_1]
    omega
  by_cases h : l2 = l ∧ (Delta + K ≤ t2 ∧ t2 < T) ∧ n2 < N
  · rw [if_pos ⟨h.1, hmem.mpr h.2.1, h.2.2⟩, if_pos h]
  · have : ¬(l2 = l ∧ t2 ∈ List.range' (Delta + K) (T - (Delta + K)) ∧ n2 < N) := by
      rintro ⟨ha, hb, hc⟩
      exact h ⟨ha, hmem.mp hb, hc⟩
    rw [if_neg this, if_neg h]

theorem derevLFold_closed (y : ℕ → ℕ → ℕ → CQ) (G : ℕ → ℕ → ℕ → ℕ → CQ)
    (N T K Delta : ℕ) (ls : List ℕ) (hls : ls.Nodup) (x : ℕ → ℕ → ℕ → CQ)
    (l2 n2 t2 : ℕ) :
    (ls.foldl (fun x2 l => derevTime y G N T K Delta l x2) x) l2 n2 t2 =
      if l2 ∈ ls ∧ (Delta + K ≤ t2 ∧ t2 < T) ∧ n2 < N then
        x l2 n2 t2 - derevTotal y G N K Delta l2 t2 n2
      else x l2 n2 t2 := by
  induction ls generalizing x with
  | nil => simp
  | cons l0 ls ih =>
    have hl0 : l0 ∉ ls := (List.nodup_cons.mp hls).1
    rw [List.foldl_cons, ih (List.nodup_cons.mp hls).2]
    by_cases h : l2 ∈ ls ∧ (Delta + K ≤ t2 ∧ t2 < T) ∧ n2 < N
    · rw [if_pos h, if_pos ⟨List.mem_cons_of_mem _ h.1, h.2⟩]
      have hne : ¬(l2 = l0 ∧ (Delta + K ≤ t2 ∧ t2 < T) ∧ n2 < N) := by
        rintro ⟨h1, _, _⟩
        exact hl0 (h1 ▸ h.1)
      rw [derevTime_closed, if_neg hne]
    · rw [if_neg h]
      by_cases h2 : l2 = l0 ∧ (Delta + K ≤ t2 ∧ t2 < T) ∧ n2 < N
      · rw [if_pos ⟨by rw [h2.1]; exact List.mem_cons_self _ _, h2.2⟩]
        rw [derevTime_closed, if_pos h2, h2.1]
      · have hne2 : ¬(l2 ∈ l0 :: ls ∧ (Delta + K ≤ t2 ∧ t2 < T) ∧ n2 < N) := by
          rintro ⟨ha, hb⟩
          rcases List.mem_cons.mp ha with ha1 | ha2
          · exact h2 ⟨ha1, hb⟩
          · exact h ⟨ha2, hb⟩
        rw [if_neg hne2, derevTime_closed, if_neg h2]

/-- Closed form of `_dereverberate`: entry `(l, n, t)` of the output is the
input minus the accumulated filter prediction when `l < L`, `n < N` and
`Delta + K ≤ t < T`, and the unmodified input everywhere else. -/
theorem derevNaive_closed (y : ℕ → ℕ → ℕ → CQ) (G : ℕ → ℕ → ℕ → ℕ → CQ)
    (L N T K Delta : ℕ) (l n t : ℕ) :
    derevNaive y G L N T K Delta l n t =
      if l < L ∧ (Delta + K ≤ t ∧ t < T) ∧ n < N then
        y l n t - derevTotal y G N K Delta l t n
      else y l n t := by
  rw [derevNaive, derevLFold_closed y G N T K Delta _ (List.nodup_range _) y l n t]
  simp only [List.mem_range]

theorem vecStep_pos (y : ℕ → ℕ → ℕ → CQ) (G : ℕ → ℕ → ℕ → ℕ → CQ)
    (L N T K Delta : ℕ) (x : ℕ → ℕ → ℕ → CQ) (tau : ℕ)
    (h1 : 1 ≤ tau) (h2 : tau < Delta + K) :
    vecStep y G L N T K Delta x tau =
      .ok (fun l n t =>
        if l < L ∧ n < N ∧ K + Delta ≤ t ∧ t < T then
          x l n t - ∑ m ∈ Finset.range N,
            CQ.mul (CQ.conj (G l (tau - Delta) m n))
              (y l m (K + Delta - tau + (t - (K + Delta))))
        else x l n t) := by
  rw [vecStep, if_pos]
  rw [if_neg (by omega)]
  omega

theorem vecFold_closed (y : ℕ → ℕ → ℕ → CQ) (G : ℕ → ℕ → ℕ → ℕ → CQ)
    (L N T K Delta : ℕ) (ts : List ℕ) (hts : ∀ tau ∈ ts, 1 ≤ tau ∧ tau < Delta + K)
    (x : ℕ → ℕ → ℕ → CQ) :
    (ts.foldl (fun (ex : Except NpError (ℕ → ℕ → ℕ → CQ)) tau =>
        ex.bind (fun x2 => vecStep y G L N T K Delta x2 tau)) (Except.ok x)) =
      Except.ok (fun l n t =>
        if l < L ∧ n < N ∧ K + Delta ≤ t ∧ t < T then
          x l n t - (ts.map (fun tau => ∑ m ∈ Finset.range N,
            CQ.mul (CQ.conj (G l (tau - Delta) m n))
              (y l m (K + Delta - tau + (t - (K + Delta)))))).sum
        else x l n t) := by
  induction ts generalizing x with
  | nil =>
    simp only [List.foldl_nil, List.map_nil, List.sum_nil, sub_zero, ite_self]
  | cons tau0 ts ih =>
    rw [List.foldl_cons]
    have hbind : (Except.ok x).bind (fun x2 => vecStep y G L N T K Delta x2 tau0)
        = vecStep y G L N T K Delta x tau0 := rfl
    rw [hbind, vecStep_pos y G L N T K Delta x tau0 (hts tau0 (List.mem_cons_self _ _)).1
      (hts tau0 (List.mem_cons_self _ _)).2]
    rw [ih (fun tau htau => hts tau (List.mem_cons_of_mem _ htau))]
    congr 1
    funext l n t
    by_cases h : l < L ∧ n < N ∧ K + Delta ≤ t ∧ t < T
    · rw [if_pos h, if_pos h, if_pos h, List.map_cons, List.sum_cons, sub_sub]
    · rw [if_neg h, if_neg h, if_neg h]

theorem corrMat_zero_of_no_window (Yn : ℕ → ℕ → CQ) (T order delay : ℕ)
    (h : winCount T order delay = 0) (f i j : ℕ) :
    corrMat Yn T order delay f i j = 0 := by
  simp [corrMat, h]

theorem gaussSolve_zero_col (n : ℕ) (A : ℕ → ℕ → CQ) (b : ℕ → CQ)
    (hA : ∀ r, A r 0 = 0) : gaussSolve (n + 1) A b = none := by
  have hf : (List.range (n + 1)).find? (fun r => !(decide (A r 0 = 0))) = none := by
    rw [List.find?_eq_none]
    intro x hx
    simp [hA x]
  simp only [gaussSolve, hf]

theorem wpeStep_singular (sq : ℚ → ℚ) (Y : ℕ → ℕ → CQ) (eps : ℚ)
    (T F order delay : ℕ) (s : WpeState)
    (ho : 1 ≤ order) (hT : T ≤ order + delay) (hF : 1 ≤ F) :
    wpeStep sq Y eps T F order delay s = .error .singularMatrix := by
  have hwin : winCount T order delay = 0 := by
    simp only [winCount, numWin]
    omega
  obtain ⟨o2, rfl⟩ : ∃ o2, order = o2 + 1 := ⟨order - 1, by omega⟩
  have hsolve : wpeSolve sq Y T (o2 + 1) delay s.power 0 = none := by
    rw [wpeSolve]
    exact gaussSolve_zero_col o2 _ _
      (fun r => corrMat_zero_of_no_window _ T (o2 + 1) delay hwin 0 r 0)
  rw [wpeStep, if_neg]
  intro hall
  have h0 := hall 0 (by simp [List.mem_range]; omega)
  rw [hsolve] at h0
  exact absurd h0 (by simp)

theorem wpeIter_singular (sq : ℚ → ℚ) (Y : ℕ → ℕ → CQ) (eps : ℚ)
    (T F order delay : ℕ)
    (ho : 1 ≤ order) (hT : T ≤ order + delay) (hF : 1 ≤ F) (k : ℕ) (hk : 1 ≤ k) :
    wpeIter sq Y eps T F order delay k = .error .singularMatrix := by
  induction k with
  | zero => omega
  | succ k ih =>
    cases k with
    | zero =>
      show (wpeIter sq Y eps T F order delay 0).bind (wpeStep sq Y eps T F order delay)
        = .error .singularMatrix
      rw [wpeIter]
      exact wpeStep_singular sq Y eps T F order delay _ ho hT hF
    | succ k2 =>
      show (wpeIter sq Y eps T F order delay (k2 + 1)).bind (wpeStep sq Y eps T F order delay)
        = .error .singularMatrix
      rw [ih (by omega)]
      rfl

theorem wpeIter_head_zero (sq : ℚ → ℚ) (Y : ℕ → ℕ → CQ) (eps : ℚ)
    (T F order delay : ℕ) (k : ℕ) (s : WpeState)
    (hs : wpeIter sq Y eps T F order delay k = .ok s) (t f : ℕ)
    (ht : t < order + delay) : s.derev t f = 0 := by
  induction k generalizing s with
  | zero =>
    rw [wpeIter] at hs
    cases hs
    rfl
  | succ k ih =>
    rw [wpeIter] at hs
    cases hiter : wpeIter sq Y eps T F order delay k with
    | error e =>
      rw [hiter] at hs
      exact absurd hs (by simp [Except.bind])
    | ok s2 =>
      rw [hiter] at hs
      have hstep : wpeStep sq Y eps T F order delay s2 = .ok s := hs
      rw [wpeStep] at hstep
      by_cases hcond : ∀ f2 ∈ List.range F, (wpeSolve sq Y T order delay s2.power f2).isSome
      · rw [if_pos hcond] at hstep
        cases hstep
        show wpeDerev2 sq Y T F order delay s2 t f = 0
        rw [wpeDerev2, if_neg (by rintro ⟨⟨h1, _⟩, _⟩; omega)]
        exact ih s2 hiter
      · rw [if_neg hcond] at hstep
        exact absurd hstep (by simp)

theorem wpeIter_power_floor (sq : ℚ → ℚ) (Y : ℕ → ℕ → CQ) (eps : ℚ)
    (T F order delay : ℕ) (k : ℕ) (s : WpeState)
    (hs : wpeIter sq Y eps T F order delay k = .ok s) (t f : ℕ) :
    eps ≤ s.power t f := by
  cases k with
  | zero =>
    rw [wpeIter] at hs
    cases hs
    exact le_max_right _ _
  | succ k =>
    rw [wpeIter] at hs
    cases hiter : wpeIter sq Y eps T F order delay k with
    | error e =>
      rw [hiter] at hs
      exact absurd hs (by simp [Except.bind])
    | ok s2 =>
      rw [hiter] at hs
      have hstep : wpeStep sq Y eps T F order delay s2 = .ok s := hs
      rw [wpeStep] at hstep
      by_cases hcond : ∀ f2 ∈ List.range F, (wpeSolve sq Y T order delay s2.power f2).isSome
      · rw [if_pos hcond] at hstep
        cases hstep
        exact le_max_right _ _
      · rw [if_neg hcond] at hstep
        exact absurd hstep (by simp)

theorem isShape4_mat4 (a b c d : ℕ) (f : ℕ → ℕ → ℕ → ℕ → CQ) :
    isShape4 (mat4 a b c d f) a b c d = true := by
  simp [isShape4, mat4, List.all_eq_true]

theorem CQ.sub_def (x y : CQ) : x - y = ⟨x.re - y.re, x.im - y.im⟩ := by
  show CQ.add x (CQ.neg y) = _
  simp only [CQ.add, CQ.neg, CQ.mk.injEq]
  exact ⟨by ring, by ring⟩

theorem gaussSolve_one_isSome (A : ℕ → ℕ → CQ) (b : ℕ → CQ) (h : A 0 0 ≠ 0) :
    (gaussSolve 1 A b).isSome = true := by
  have hf : (List.range 1).find? (fun r => !(decide (A r 0 = 0))) = some 0 := by
    rw [show List.range 1 = [0] from rfl]
    rw [List.find?_cons_of_pos _ (by simp [h])]
  simp only [gaussSolve, hf]
  rfl

theorem wpeSmall_corr :
    corrMat (wpeNorm ratSqrt Ysmall (powerSpec Ysmall 1)) 2 1 0 0 0 0 = ⟨1, 0⟩ := by
  have hwin : winCount 2 1 0 = 1 := rfl
  rw [corrMat, hwin, Finset.sum_range_one]
  have hnorm : ∀ t f : ℕ, wpeNorm ratSqrt Ysmall (powerSpec Ysmall 1) t f = ⟨1, 0⟩ := by
    intro t f
    rw [wpeNorm, powerSpec]
    have h1 : CQ.normSq (Ysmall t f) = 1 := by norm_num [CQ.normSq, Ysmall]
    rw [h1, max_self]
    have h2 : ratSqrt 1 = 1 := by norm_num [ratSqrt, Nat.sqrt]
    rw [h2]
    norm_num [CQ.divR, Ysmall]
  rw [hnorm]
  norm_num [CQ.mul, CQ.conj]

theorem wpeSmall_ok :
    wpeIter ratSqrt Ysmall 1 2 1 1 0 1 =
      .ok ⟨wpeDerev2 ratSqrt Ysmall 2 1 1 0 ⟨fun _ _ => 0, powerSpec Ysmall 1⟩,
           powerSpec (wpeDerev2 ratSqrt Ysmall 2 1 1 0 ⟨fun _ _ => 0, powerSpec Ysmall 1⟩) 1⟩ := by
  have hcond : ∀ f ∈ List.range 1,
      (wpeSolve ratSqrt Ysmall 2 1 0
        (WpeState.power ⟨fun _ _ => 0, powerSpec Ysmall 1⟩) f).isSome := by
    intro f hf
    have hf0 : f = 0 := by
      rw [List.mem_range] at hf
      omega
    subst hf0
    rw [wpeSolve]
    refine gaussSolve_one_isSome _ _ ?_
    rw [wpeSmall_corr, CQ.zero_def]
    intro heq
    rw [CQ.mk.injEq] at heq
    exact absurd heq.1 (by norm_num)
  show (wpeIter ratSqrt Ysmall 1 2 1 1 0 0).bind (wpeStep ratSqrt Ysmall 1 2 1 1 0) = _
  rw [wpeIter]
  show wpeStep ratSqrt Ysmall 1 2 1 1 0 ⟨fun _ _ => 0, powerSpec Ysmall 1⟩ = _
  rw [wpeStep, if_pos hcond]

theorem collect_no_key (c : ℕ) (ls : List String)
    (h : ∀ l ∈ ls, strContains l numMicKey = false) :
    collectLines c ls = (ls, false) := by
  induction ls with
  | nil => rfl
  | cons a ls ih =>
    have ha := h a (List.mem_cons_self a ls)
    rw [collectLines, if_neg (by rw [ha]; exact Bool.false_ne_true)]
    rw [ih (fun l hl => h l (List.mem_cons_of_mem a hl))]

theorem collect_split (c : ℕ) (pre post : List String) (line : String)
    (hpre : ∀ l ∈ pre, strContains l numMicKey = false)
    (hline : strContains line numMicKey = true)
    (hpost : ∀ l ∈ post, strContains l numMicKey = false) :
    collectLines c (pre ++ line :: post) =
      if strContains line (Nat.repr c) then (pre, false)
      else (pre ++ numMicLine c :: post, true) := by
  induction pre with
  | nil =>
    simp only [List.nil_append]
    rw [collectLines, if_pos hline]
    by_cases h : strContains line (Nat.repr c) = true
    · rw [if_pos h, if_pos h]
    · rw [if_neg h, if_neg h, collect_no_key c post hpost]
  | cons a pre ih =>
    have ha := hpre a (List.mem_cons_self a pre)
    simp only [List.cons_append]
    rw [collectLines, if_neg (by rw [ha]; exact Bool.false_ne_true)]
    rw [ih (fun l hl => hpre l (List.mem_cons_of_mem a hl))]
    by_cases h : strContains line (Nat.repr c) = true
    · rw [if_pos h, if_pos h]
    · rw [if_neg h, if_neg h]


/-- C1: the spec claims the single-channel `wpe` returns the leading frames
(`t < order + delay`) unmodified; the code initialises `dereverberated` with
`np.zeros_like(Y)` and only ever assigns rows `order + delay:`, so the leading
frames of the output are zero, not the input.  At `Y = [[1], [1]]`,
`epsilon = 1`, `order = 1`, `delay = 0`, `iterations = 1` the run succeeds and
returns `0` at `t = 0 < order + delay` although the input there is `1`. -/
theorem wpe_c1_leading_frames :
    wpeAt (wpe ratSqrt Ysmall 1 2 1 1 0 1) 0 0 = some 0 ∧
    Ysmall 0 0 = ⟨1, 0⟩ ∧ ((0 : CQ) ≠ ⟨1, 0⟩) := by
  refine ⟨?_, rfl, ?_⟩
  · have hz := wpeIter_head_zero ratSqrt Ysmall 1 2 1 1 0 1 _ wpeSmall_ok 0 0 (by omega)
    rw [wpeAt, wpe, wpeSmall_ok]
    simp only [Except.map, Except.toOption, Option.map_some']
    exact congrArg _ hz
  · rw [CQ.zero_def]
    intro heq
    rw [CQ.mk.injEq] at heq
    exact absurd heq.1 (by norm_num)

/-- C2: the spec claims `iterations = 0` returns the input unchanged; the
code returns the untouched `np.zeros_like(Y)` buffer instead.  With zero
iterations the output is the all-zeros tensor for every input, and at
`Y = [[1], [1]]` the output entry `0` differs from the input entry `1`. -/
theorem wpe_c2_zero_iterations :
    (∀ (sq : ℚ → ℚ) (Y : ℕ → ℕ → CQ) (eps : ℚ) (T F order delay : ℕ),
      wpe sq Y eps T F order delay 0 = .ok (fun _ _ => 0)) ∧
    wpeAt (wpe ratSqrt Ysmall 1 2 1 1 0 0) 0 0 = some 0 ∧ Ysmall 0 0 ≠ 0 := by
  refine ⟨fun sq Y eps T F order delay => rfl, rfl, ?_⟩
  rw [CQ.zero_def]
  intro heq
  rw [CQ.mk.injEq] at heq
  exact absurd heq.1 (by norm_num [Ysmall])

/-- C3: in `_dereverberate`, for every bin `l < L`, channel `n < N` and time
`K + Delta ≤ t < T`, the output is
`y[l, n, t] - sum_{tau = Delta}^{Delta + K - 1} sum_m conj(G[l, tau - Delta, m, n]) * y[l, m, t - tau]`
(the `n`-th component of `G^H · y[l, :, t - tau]`), and every earlier time
index keeps the unmodified input. -/
theorem wpe_c3_dereverberate (y : ℕ → ℕ → ℕ → CQ) (G : ℕ → ℕ → ℕ → ℕ → CQ)
    (L N T K Delta l n t : ℕ) (hl : l < L) (hn : n < N) :
    derevNaive y G L N T K Delta l n t =
      if K + Delta ≤ t ∧ t < T then
        y l n t - ∑ tau ∈ Finset.Ico Delta (Delta + K), ∑ m ∈ Finset.range N,
          CQ.mul (CQ.conj (G l (tau - Delta) m n)) (y l m (t - tau))
      else y l n t := by
  rw [derevNaive_closed]
  by_cases h : K + Delta ≤ t ∧ t < T
  · rw [if_pos ⟨hl, ⟨by omega, h.2⟩, hn⟩, if_pos h]
    rfl
  · rw [if_neg (by rintro ⟨_, ⟨h1, h2⟩, _⟩; exact h ⟨by omega, h2⟩), if_neg h]

/-- Witness for C3 at `L = N = 1`, `T = 2`, `K = 1`, `Delta = 0`, `l = n = 0`,
`t = 1`. -/
theorem wpe_c3_witness :
    (0 < 1 ∧ 0 < 1) ∧
    derevNaive Ymc Gone 1 1 2 1 0 0 0 1 =
      (if 1 + 0 ≤ 1 ∧ 1 < 2 then
        Ymc 0 0 1 - ∑ tau ∈ Finset.Ico 0 (0 + 1), ∑ m ∈ Finset.range 1,
          CQ.mul (CQ.conj (Gone 0 (tau - 0) m 0)) (Ymc 0 m (1 - tau))
      else Ymc 0 0 1) :=
  ⟨⟨Nat.one_pos, Nat.one_pos⟩,
   wpe_c3_dereverberate Ymc Gone 1 1 2 1 0 0 0 1 Nat.one_pos Nat.one_pos⟩

/-- C4 counterexample: on the spec's Scenario C shape (`T = 5`, `order = 4`,
`delay = 2`, so `T ≤ order + delay`), the single-channel `wpe` does not raise
a shape error before computing: it performs the windowing and correlation
work (over an empty window set) and then fails inside the first per-bin
`np.linalg.solve` with a singular-matrix error. -/
theorem wpe_c4_counterexample :
    exErr (wpe ratSqrt YscenC 1 5 2 4 2 10) = some NpError.singularMatrix ∧
    NpError.singularMatrix ≠ NpError.shapeError := by
  constructor
  · rw [wpe, wpeIter_singular ratSqrt YscenC 1 5 2 4 2 (by omega) (by omega) (by omega) 10 (by omega)]
    rfl
  · decide

/-- C4 (amended): for every input with `order ≤ T ≤ order + delay` (no valid
regression target), `order ≥ 1`, at least one frequency bin and at least one
iteration, `wpe` raises a singular-matrix error from the first per-bin solve
(the correlation matrix is an empty sum, hence zero); no shape check runs
before the numeric work. -/
theorem wpe_c4_amended (sq : ℚ → ℚ) (Y : ℕ → ℕ → CQ) (eps : ℚ)
    (T F order delay iterations : ℕ)
    (ho : 1 ≤ order) (hoT : order ≤ T) (hT : T ≤ order + delay)
    (hF : 1 ≤ F) (hit : 1 ≤ iterations) :
    exErr (wpe sq Y eps T F order delay iterations) = some NpError.singularMatrix := by
  rw [wpe, wpeIter_singular sq Y eps T F order delay ho hT hF iterations hit]
  rfl

/-- Witness for C4 (amended) at `T = 5`, `F = 1`, `order = 4`, `delay = 2`,
one iteration. -/
theorem wpe_c4_witness :
    (1 ≤ 4 ∧ (4 : ℕ) ≤ 5 ∧ (5 : ℕ) ≤ 4 + 2 ∧ (1 : ℕ) ≤ 1) ∧
    exErr (wpe ratSqrt YscenC 1 5 1 4 2 1) = some NpError.singularMatrix :=
  ⟨⟨by omega, by omega, by omega, by omega⟩,
   wpe_c4_amended ratSqrt YscenC 1 5 1 4 2 1 (by omega) (by omega) (by omega)
     (by omega) (by omega)⟩

/-- C5: for every input, every `epsilon > 0` and every iteration count, the
power spectrum held by the `wpe` iteration state is at least `epsilon` at
every index: it is always `np.maximum(|signal|^2, epsilon)` of either the raw
input (iteration 0) or the previous iteration's dereverberated estimate. -/
theorem wpe_c5_power_floor (sq : ℚ → ℚ) (Y : ℕ → ℕ → CQ) (eps : ℚ)
    (T F order delay : ℕ) (heps : 0 < eps) (k t f : ℕ) (q : ℚ)
    (hq : powerProj (wpeIter sq Y eps T F order delay k) t f = some q) :
    eps ≤ q := by
  cases hiter : wpeIter sq Y eps T F order delay k with
  | error e =>
    rw [hiter] at hq
    exact absurd hq (by simp [powerProj, Except.toOption])
  | ok s =>
    rw [hiter] at hq
    simp only [powerProj, Except.toOption, Option.map_some', Option.some.injEq] at hq
    rw [← hq]
    exact wpeIter_power_floor sq Y eps T F order delay k s hiter t f

/-- Witness for C5 at `Y = [[1], [1]]`, `epsilon = 1`, iteration state `k = 0`. -/
theorem wpe_c5_witness : (0 : ℚ) < 1 ∧ (1 : ℚ) ≤ 1 := by
  refine ⟨by norm_num, ?_⟩
  refine wpe_c5_power_floor ratSqrt Ysmall 1 2 1 1 0 (by norm_num) 0 0 0 1 ?_
  have hmax : powerSpec Ysmall 1 0 0 = 1 := by
    rw [powerSpec]
    norm_num [CQ.normSq, Ysmall]
  simp only [wpeIter, powerProj, Except.toOption, Option.map_some', hmax]

/-- C6: after every (successful) iteration of `multichannel_wpe` on an
`(L, N, T)` input, the filter tensor `G_hat` — rebuilt each iteration as a
fresh `reshape`/`transpose` of that iteration's solve output — has shape
`(L, K, N, N)` exactly. -/
theorem mc_c6_filter_shape (Y : ℕ → ℕ → ℕ → CQ) (L N T K Delta : ℕ) (k : ℕ)
    (g : List (List (List (List CQ))))
    (hg : gProj (mcIter Y L N T K Delta k) = some g) :
    isShape4 g L K N N = true := by
  cases k with
  | zero =>
    rw [mcIter] at hg
    simp only [gProj, Except.toOption, Option.map_some', Option.some.injEq] at hg
    rw [← hg]
    exact isShape4_mat4 L K N N _
  | succ k =>
    rw [mcIter] at hg
    cases hiter : mcIter Y L N T K Delta k with
    | error e =>
      rw [hiter] at hg
      exact absurd hg (by simp [gProj, Except.bind, Except.toOption])
    | ok s =>
      rw [hiter] at hg
      have hg2 : gProj (mcStep Y L N T K Delta s) = some g := hg
      simp only [mcStep] at hg2
      cases hinv : spatialInv (derevNaive Y (g4 s.G) L N T K Delta) L N T with
      | none =>
        simp only [hinv] at hg2
        exact absurd hg2 (by simp [gProj, Except.toOption])
      | some Lam =>
        simp only [hinv] at hg2
        by_cases hsol : ∀ l ∈ List.range L,
            (gaussSolve (N * N * K)
              (mcRhat (crazyMat Y L N T K Delta) Lam N (T - Delta - K + 1) l)
              (mcRvec (crazyMat Y L N T K Delta) Lam Y N K Delta (T - Delta - K + 1) l)).isSome
              = true
        · rw [if_pos hsol] at hg2
          simp only [gProj, Except.toOption, Option.map_some', Option.some.injEq] at hg2
          rw [← hg2]
          exact isShape4_mat4 L K N N _
        · rw [if_neg hsol] at hg2
          exact absurd hg2 (by simp [gProj, Except.toOption])

/-- Witness for C6 at the `(1, 1, 2)` input, before the first iteration. -/
theorem mc_c6_witness :
    isShape4 (mat4 1 1 1 1 (fun _ _ _ _ => 0)) 1 1 1 1 = true :=
  mc_c6_filter_shape Ymc 1 1 2 1 0 0 (mat4 1 1 1 1 (fun _ _ _ _ => 0)) rfl

/-- C7 counterexample: with `Delta = 0` the vectorized dereverberation is NOT
equivalent to the naive one — the `tau = 0` update slices `y[..., K:-0]`,
i.e. `y[..., K:0]`, an empty array, and the in-place subtraction fails with a
broadcast error, while the naive loop computes a result (here
`y[0,0,1] - conj(G)·y[0,0,1] = 0`). -/
theorem wpe_c7_counterexample :
    exErr (derevVec Ymc Gone 1 1 2 1 0) = some NpError.broadcastMismatch ∧
    derevNaive Ymc Gone 1 1 2 1 0 0 0 1 = 0 := by
  constructor
  · rfl
  · rw [derevNaive_closed, if_pos ⟨by omega, ⟨by omega, by omega⟩, by omega⟩]
    have htot : derevTotal Ymc Gone 1 1 0 0 1 0 = ⟨1, 0⟩ := by
      rw [derevTotal]
      rw [show Finset.Ico 0 (0 + 1) = Finset.range 1 from congrFun Nat.Ico_zero_eq_range 1]
      rw [Finset.sum_range_one, derevSub, Finset.sum_range_one]
      norm_num [CQ.mul, CQ.conj, Gone, Ymc]
    rw [htot, CQ.sub_def, CQ.zero_def]
    norm_num [Ymc]

/-- C7 (amended): for `Delta ≥ 1` (so the `tau = 0` degenerate slice never
occurs), `_dereverberate_vectorized` succeeds and agrees pointwise with the
naive `_dereverberate` for every input, filter, and index; the claimed
equivalence for all `Delta ≥ 0` fails at `Delta = 0` (see the
counterexample). -/
theorem wpe_c7_vectorized_equiv (y : ℕ → ℕ → ℕ → CQ) (G : ℕ → ℕ → ℕ → ℕ → CQ)
    (L N T K Delta : ℕ) (hD : 1 ≤ Delta) (l n t : ℕ) :
    vecAt (derevVec y G L N T K Delta) l n t =
      some (derevNaive y G L N T K Delta l n t) := by
  have hfold := vecFold_closed y G L N T K Delta (List.range' Delta K)
    (fun tau htau => by
      rw [List.mem_range'_1] at htau
      omega) y
  rw [derevVec, hfold]
  simp only [vecAt, Except.toOption, Option.map_some', Option.some.injEq]
  rw [derevNaive_closed]
  by_cases h : l < L ∧ n < N ∧ K + Delta ≤ t ∧ t < T
  · rw [if_pos h, if_pos ⟨h.1, ⟨by omega, h.2.2.2⟩, h.2.1⟩]
    congr 1
    rw [listMapRangeSum (fun tau => ∑ m ∈ Finset.range N,
      CQ.mul (CQ.conj (G l (tau - Delta) m n)) (y l m (K + Delta - tau + (t - (K + Delta)))))]
    rw [derevTotal]
    refine Finset.sum_congr rfl (fun tau htau => ?_)
    rw [derevSub]
    refine Finset.sum_congr rfl (fun m hm => ?_)
    rw [Finset.mem_Ico] at htau
    rw [show K + Delta - tau + (t - (K + Delta)) = t - tau by omega]
  · rw [if_neg h, if_neg (by rintro ⟨a, ⟨b, c⟩, d⟩; exact h ⟨a, d, by omega, c⟩)]

/-- Witness for C7 (amended) at `L = N = 1`, `T = 3`, `K = 1`, `Delta = 1`. -/
theorem wpe_c7_witness :
    (1 : ℕ) ≤ 1 ∧
    vecAt (derevVec Ymc Gone 1 1 3 1 1) 0 0 2 =
      some (derevNaive Ymc Gone 1 1 3 1 1 0 0 2) :=
  ⟨le_refl 1, wpe_c7_vectorized_equiv Ymc Gone 1 1 3 1 1 (le_refl 1) 0 0 2⟩

/-- C8: both `wpe` and `multichannel_wpe` are deterministic — they are pure
functions of their arguments, so two calls on equal inputs with equal
parameters return equal results. -/
theorem wpe_c8_deterministic (sq : ℚ → ℚ) (Y1 Y2 : ℕ → ℕ → CQ) (eps : ℚ)
    (T F order delay iterations : ℕ) (Z1 Z2 : ℕ → ℕ → ℕ → CQ)
    (L N T2 K Delta it2 : ℕ) (h1 : Y1 = Y2) (h2 : Z1 = Z2) :
    wpe sq Y1 eps T F order delay iterations = wpe sq Y2 eps T F order delay iterations ∧
    multichannel_wpe Z1 L N T2 K Delta it2 = multichannel_wpe Z2 L N T2 K Delta it2 := by
  subst h1
  subst h2
  exact ⟨rfl, rfl⟩

/-- Witness for C8 at the concrete single- and multichannel inputs. -/
theorem wpe_c8_witness :
    wpe ratSqrt Ysmall 1 2 1 1 0 1 = wpe ratSqrt Ysmall 1 2 1 1 0 1 ∧
    multichannel_wpe Ymc 1 1 2 1 0 1 = multichannel_wpe Ymc 1 1 2 1 0 1 :=
  wpe_c8_deterministic ratSqrt Ysmall Ysmall 1 2 1 1 0 1 Ymc Ymc 1 1 2 1 0 1 rfl rfl

/-- C9: `multichannel_wpe` with `iterations = 0` never binds the local
`x_hat` (it is assigned only inside the loop body), so the trailing
`return x_hat` raises an unbound-local error instead of returning a tensor. -/
theorem mc_c9_unbound_local (Y : ℕ → ℕ → ℕ → CQ) (L N T K Delta : ℕ) :
    exErr (multichannel_wpe Y L N T K Delta 0) = some NpError.unboundLocal := rfl

/-- C10 (amended): for a settings file `pre ++ [line] ++ post` whose only
line containing `'num_mic = '` is `line`: when `str(c)` occurs in `line` as a
substring — which includes, but is not limited to, the case where the
declared count equals `c` — the file is left unchanged; otherwise it is
rewritten with `line` replaced by `'num_mic = c;\n'` and every other line
preserved.  (The original claim's "rewritten whenever the declared count
differs" fails because the code tests substring membership of `str(c)`, not
equality of the declared count; see the counterexample.) -/
theorem dereverb_c10_settings (pre post : List String) (line : String) (c : ℕ)
    (hpre : ∀ l ∈ pre, strContains l numMicKey = false)
    (hline : strContains line numMicKey = true)
    (hpost : ∀ l ∈ post, strContains l numMicKey = false) :
    settingsUpdate (pre ++ line :: post) c =
      if strContains line (Nat.repr c) then none
      else some (pre ++ numMicLine c :: post) := by
  cases h2 : strContains line (Nat.repr c) with
  | false => simp [settingsUpdate, collect_split c pre post line hpre hline hpost, h2]
  | true => simp [settingsUpdate, collect_split c pre post line hpre hline hpost, h2]

/-- Witness for C10 (amended): a three-line file whose declaration
`num_mic = 2;` does not contain `"3"`, so calling with `c = 3` rewrites
exactly that line. -/
theorem dereverb_c10_witness :
    settingsUpdate ([ "a\n" ] ++ "num_mic = 2;\n" :: [ "b\n" ]) 3 =
      some ([ "a\n" ] ++ numMicLine 3 :: [ "b\n" ]) := by
  have h := dereverb_c10_settings [ "a\n" ] [ "b\n" ] "num_mic = 2;\n" 3
    (by decide) (by decide) (by decide)
  rw [h, if_neg (by decide)]

/-- C10 counterexample: with the settings file `["num_mic = 12;\n"]` and
`c = 1`, the declared count (12) differs from `c`, yet the file is left
unchanged — `str(1) = "1"` occurs in the line as a substring, so the loop
breaks without setting `modify_settings`.  The claim "if it differs the file
is rewritten" is therefore false. -/
theorem dereverb_c10_counterexample :
    settingsUpdate [ "num_mic = 12;\n" ] 1 = none ∧
    "num_mic = 12;\n" ≠ numMicLine 1 := by
  constructor
  · decide
  · decide
